import Mathlib

/-!
Verification of the mirroring reverse proxy core (`proxyServer.go`).

The content rewriting engine `modifyWikipediaContent` is embedded at the byte
level: content is a list of characters, the nine regular-expression patterns
are fixed sequences of literal / character-class items, and Go's
`regexp.ReplaceAllFunc` is modelled as a leftmost non-overlapping scan whose
per-position matcher follows the leftmost-first (greedy prefers longer, lazy
prefers shorter) preference order that Go's `regexp` package implements for
these patterns.  The HTTP handlers `staticHandler` and `proxyHandler` are
embedded with explicit oracles for the filesystem and the upstream fetch, and
their results record the externally observable effects (status, headers,
which files were read, which URLs were fetched).
-/

set_option maxRecDepth 20000

abbrev Str := List Char

/-- Shorthand turning a string literal into the character-list representation. -/
def S (s : String) : Str := s.data

def quoteC : Char := Char.ofNat 34

def apostC : Char := Char.ofNat 39

/-- Go `strings.HasPrefix`. -/
def startsWith : Str → Str → Bool
  | _, [] => true
  | [], _ :: _ => false
  | c :: s, d :: l => c = d && startsWith s l

/-- Go `strings.Contains` / `bytes.Contains`. -/
def containsSub : Str → Str → Bool
  | [], sub => sub.isEmpty
  | c :: s, sub => startsWith (c :: s) sub || containsSub s sub

/-- Go `strings.Replace(s, old, new, 1)` / `bytes.Replace(s, old, new, 1)`:
replace the first occurrence of `old` (if any) by `new`. -/
def replaceFirst : Str → Str → Str → Str
  | [], _, _ => []
  | c :: s, old, new =>
    if startsWith (c :: s) old then new ++ (c :: s).drop old.length
    else c :: replaceFirst s old new

/-- Go `strings.TrimPrefix`. -/
def trimPre (s pre : Str) : Str :=
  if startsWith s pre then s.drop pre.length else s

/-- One item of a regular expression: a literal, an optional character, an
optional character from a set, a greedy `[^cs]*`, or a lazy `[^cs]*?`.
The nine patterns of `modifyWikipediaContent` are sequences of these. -/
inductive RItem where
  | lit : Str → RItem
  | optC : Char → RItem
  | optIn : List Char → RItem
  | starNot : List Char → RItem
  | starLazy : List Char → RItem

/-- Length of the maximal run of characters not in `cs` (the most a
`[^cs]*` can consume). -/
def runLen (cs : List Char) : Str → Nat
  | [] => 0
  | c :: s => if c ∈ cs then 0 else runLen cs s + 1

/-- `[k, k-1, …, 0]`: greedy preference order for a star. -/
def descList : Nat → List Nat
  | 0 => [0]
  | k + 1 => (k + 1) :: descList k

/-- `[0, 1, …, k]`: lazy preference order for a star. -/
def ascList : Nat → List Nat
  | 0 => [0]
  | k + 1 => ascList k ++ [k + 1]

def joinMap (f : Nat → List Nat) : List Nat → List Nat
  | [] => []
  | k :: ks => f k ++ joinMap f ks

/-- All lengths of prefixes of `s` matching the item sequence, in the
backtracking preference order (first = what the engine uses). -/
def runAll : List RItem → Str → List Nat
  | [], _ => [0]
  | .lit l :: rest, s =>
    if startsWith s l then (runAll rest (s.drop l.length)).map (l.length + ·) else []
  | .optC c :: rest, s =>
    match s with
    | [] => runAll rest []
    | c' :: s' =>
      if c' = c then (runAll rest s').map (· + 1) ++ runAll rest (c' :: s')
      else runAll rest (c' :: s')
  | .optIn cs :: rest, s =>
    match s with
    | [] => runAll rest []
    | c' :: s' =>
      if c' ∈ cs then (runAll rest s').map (· + 1) ++ runAll rest (c' :: s')
      else runAll rest (c' :: s')
  | .starNot cs :: rest, s =>
    joinMap (fun k => (runAll rest (s.drop k)).map (k + ·)) (descList (runLen cs s))
  | .starLazy cs :: rest, s =>
    joinMap (fun k => (runAll rest (s.drop k)).map (k + ·)) (ascList (runLen cs s))

/-- The match the engine takes at this position: the preferred one. -/
def runFrom (p : List RItem) (s : Str) : Option Nat :=
  (runAll p s).head?

/-- Go `re.ReplaceAllFunc(content, f)`: leftmost non-overlapping matches,
each replaced by `f` applied to the matched text.  Every step either
consumes a match (all nine patterns start with a nonempty literal, so a
match is never empty — the `0 < n` guard only backs the termination
argument) or advances one character, so a fuel of `s.length` always
suffices; the fuel makes the recursion structural. -/
def replaceAllFuel (p : List RItem) (f : Str → Str) : Nat → Str → Str
  | _, [] => []
  | 0, s => s
  | fuel + 1, c :: s =>
    match runFrom p (c :: s) with
    | some n =>
      if 0 < n then f ((c :: s).take n) ++ replaceAllFuel p f fuel ((c :: s).drop n)
      else c :: replaceAllFuel p f fuel s
    | none => c :: replaceAllFuel p f fuel s

def replaceAllFunc (p : List RItem) (f : Str → Str) (s : Str) : Str :=
  replaceAllFuel p f s.length s

def wikiOrg : Str := S "wikipedia.org"

def mWikiOrg : Str := S "m-wikipedia.org"

/-- The replacement callback of `modifyWikipediaContent` (the Go `switch`
inside `re.ReplaceAllFunc`). -/
def rewriteLink (link : Str) : Str :=
  if containsSub link (S "//") then
    if containsSub link wikiOrg then
      replaceFirst link wikiOrg mWikiOrg
    else if startsWith link (S "src=\"//") then
      replaceFirst link (S "src=\"//") (S "src=\"https://")
    else if containsSub link (S "url(//") then
      replaceFirst link (S "url(//") (S "url(https://")
    else if containsSub link (S "@import") then
      replaceFirst link (S "//") (S "https://")
    else link
  else if startsWith link (S "href=\"/") then
    if containsSub link (S "/wiki/") then
      S "href=\"https://m-wikipedia.org" ++ link.drop 6 ++ [quoteC]
    else if containsSub link (S "/w/") then
      S "href=\"https://wikipedia.org" ++ link.drop 6 ++ [quoteC]
    else link
  else if startsWith link (S "src=\"/") then
    S "src=\"https://wikipedia.org" ++ link.drop 5 ++ [quoteC]
  else link

def pat1 : List RItem :=
  [.lit (S "href=\"http"), .optC 's', .lit (S "://"), .starNot ['/'],
   .lit wikiOrg, .starNot [quoteC], .lit [quoteC]]

def pat2 : List RItem :=
  [.lit (S "href=\"//"), .starNot ['/'], .lit wikiOrg, .starNot [quoteC], .lit [quoteC]]

def pat3 : List RItem := [.lit (S "href=\"/wiki/"), .starNot [quoteC], .lit [quoteC]]

def pat4 : List RItem := [.lit (S "href=\"/w/"), .starNot [quoteC], .lit [quoteC]]

def pat5 : List RItem := [.lit (S "src=\"//"), .starNot [quoteC], .lit [quoteC]]

def pat6 : List RItem := [.lit (S "src=\"/static/"), .starNot [quoteC], .lit [quoteC]]

def pat7 : List RItem :=
  [.lit (S "url("), .optIn [apostC, quoteC], .lit (S "//"),
   .starLazy [apostC, quoteC], .optIn [apostC, quoteC], .lit (S ")")]

def pat8 : List RItem := [.lit (S "@import \"//"), .starNot [quoteC], .lit [quoteC]]

def pat9 : List RItem := [.lit (S "@import url(\"//"), .starLazy [quoteC], .lit (S "\")")]

def patternList : List (List RItem) := [pat1, pat2, pat3, pat4, pat5, pat6, pat7, pat8, pat9]

/-- The ordered rewrite passes (the `for _, pattern := range patterns` loop). -/
def applyAllPatterns (content : Str) : Str :=
  patternList.foldl (fun acc p => replaceAllFunc p rewriteLink acc) content

def headEndTag : Str := S "</head>"

def customStyles : Str :=
  S "\n<link rel=\"stylesheet\" href=\"https://wikipedia.org/w/load.php?debug=false&lang=en&modules=site.styles&only=styles&skin=vector\">\n<link rel=\"stylesheet\" href=\"/static/custom.css\">\n<script src=\"/static/custom.js\"></script>\n</head>"

/-- `modifyWikipediaContent(content, contentType)`: gate on the content type,
apply the nine rewrite passes in order, then inject the custom block before
the first `</head>` when one is present. -/
def modifyWikipediaContent (content contentType : Str) : Str :=
  if containsSub contentType (S "text/html") = false then content
  else
    let modified := applyAllPatterns content
    if containsSub modified headEndTag then
      replaceFirst modified headEndTag customStyles
    else modified

/-- Observable outcome of `staticHandler`: response status, the headers it
sets, the body, and which files it read from disk. -/
structure StaticResponse where
  status : Nat
  contentType : Option Str
  cacheControl : Option Str
  body : Option Str
  fsReads : List Str
deriving DecidableEq

/-- `staticHandler(w, r)`.  `fs` is the on-disk filesystem (`os.ReadFile`):
`fs path = some content` when the file exists.  The Go function trims the
`/static/` path component, selects the content type from the closed
two-entry `switch` (returning 404 from the `default` case before any file
access), then reads the file, mapping a read error to 404. -/
def staticHandler (fs : Str → Option Str) (urlPath : Str) : StaticResponse :=
  let filename := trimPre urlPath (S "/static/")
  let fp := S "./static/" ++ filename
  if filename = S "custom.css" then
    match fs fp with
    | some content =>
      ⟨200, some (S "text/css"), some (S "public, max-age=86400"), some content, [fp]⟩
    | none => ⟨404, none, none, some (S "File not found"), [fp]⟩
  else if filename = S "custom.js" then
    match fs fp with
    | some content =>
      ⟨200, some (S "application/javascript"), some (S "public, max-age=86400"),
        some content, [fp]⟩
    | none => ⟨404, none, none, some (S "File not found"), [fp]⟩
  else ⟨404, none, none, some (S "404 page not found"), []⟩

/-- Observable outcome of `proxyHandler`: status, body, the `Content-Type`
and `Server` headers, which upstream URLs were fetched, whether the static
handler was consulted, and whether the rewrite engine ran. -/
structure ProxyResponse where
  status : Nat
  body : Option Str
  contentTypeHeader : Option Str
  serverHeader : Option Str
  fetchedUrls : List Str
  staticLookup : Bool
  rewrote : Bool
deriving DecidableEq

/-- `proxyHandler(w, r)`.  `fetch` is the upstream HTTP client
(`fetchResource`): `fetch url = some (body, contentType)` on success, `none`
on any transport error.  `fs` is the filesystem used by `staticHandler`.
`mimeForPath` models `mime.TypeByExtension(filepath.Ext(path))` for the
resource branch's content-type fallback. -/
def proxyHandler (fetch : Str → Option (Str × Str)) (fs : Str → Option Str)
    (mimeForPath : Str → Str) (method urlPath : Str) : ProxyResponse :=
  if method ≠ S "GET" then
    ⟨405, some (S "Method not allowed"), none, none, [], false, false⟩
  else if startsWith urlPath (S "/static/") then
    let sr := staticHandler fs urlPath
    ⟨sr.status, sr.body, sr.contentType, none, [], true, false⟩
  else if startsWith urlPath (S "/w/") || startsWith urlPath (S "/static/") then
    match fetch (S "https://wikipedia.org" ++ urlPath) with
    | none =>
      ⟨500, some (S "Error fetching resource"), none, none,
        [S "https://wikipedia.org" ++ urlPath], false, false⟩
    | some (content, ct) =>
      let ct' := if ct = [] then mimeForPath urlPath else ct
      ⟨200, some content, some ct', none,
        [S "https://wikipedia.org" ++ urlPath], false, false⟩
  else
    match fetch (S "https://wikipedia.org" ++ urlPath) with
    | none =>
      ⟨500, some (S "Error fetching content"), none, none,
        [S "https://wikipedia.org" ++ urlPath], false, false⟩
    | some (content, ct) =>
      ⟨200, some (modifyWikipediaContent content ct), some ct, some (S "WikiProxy/1.0"),
        [S "https://wikipedia.org" ++ urlPath], false, true⟩

/-- `t` occurs as a contiguous substring of `s` (the propositional form of
`containsSub`). -/
def HasSub (s t : Str) : Prop := ∃ u v, s = u ++ t ++ v

/-- The final item of a pattern, when it is a literal. -/
def lastLit : List RItem → Option Str
  | [] => none
  | [it] => match it with | .lit l => some l | _ => none
  | _ :: it :: rest => lastLit (it :: rest)

theorem startsWith_iff (s p : Str) : startsWith s p = true ↔ ∃ r, s = p ++ r := by
  induction p generalizing s with
  | nil => simp [startsWith]
  | cons d l ih =>
    cases s with
    | nil => simp [startsWith]
    | cons c s' =>
      simp only [startsWith, Bool.and_eq_true, decide_eq_true_eq, ih, List.cons_append]
      constructor
      · rintro ⟨rfl, r, rfl⟩
        exact ⟨r, rfl⟩
      · rintro ⟨r, hr⟩
        injection hr with h1 h2
        exact ⟨h1, r, h2⟩

theorem containsSub_iff (s t : Str) : containsSub s t = true ↔ HasSub s t := by
  induction s with
  | nil =>
    simp only [containsSub, List.isEmpty_iff, HasSub]
    constructor
    · rintro rfl
      exact ⟨[], [], rfl⟩
    · rintro ⟨u, v, h⟩
      have hlen := congrArg List.length h
      simp only [List.length_append, List.length_nil] at hlen
      have ht : t.length = 0 := by omega
      exact List.length_eq_zero.mp ht
  | cons c s' ih =>
    simp only [containsSub, Bool.or_eq_true, startsWith_iff, ih, HasSub]
    constructor
    · rintro (⟨r, hr⟩ | ⟨u, v, hs⟩)
      · exact ⟨[], r, by simpa using hr⟩
      · exact ⟨c :: u, v, by simp [hs]⟩
    · rintro ⟨u, v, hs⟩
      cases u with
      | nil => exact Or.inl ⟨v, by simpa using hs⟩
      | cons c0 u' =>
        right
        rw [List.cons_append, List.cons_append] at hs
        injection hs with h1 h2
        exact ⟨u', v, h2⟩

theorem hasSub_of_left (x y t : Str) (h : HasSub x t) : HasSub (x ++ y) t := by
  obtain ⟨u, v, rfl⟩ := h
  exact ⟨u, v ++ y, by simp⟩

theorem hasSub_of_right (x y t : Str) (h : HasSub y t) : HasSub (x ++ y) t := by
  obtain ⟨u, v, rfl⟩ := h
  exact ⟨x ++ u, v, by simp⟩

/-- Any occurrence of `t` in `x ++ y` is inside `x`, inside `y`, or spans
the junction, in which case `t` splits as a nonempty suffix-piece of `x`
followed by a nonempty prefix-piece of `y`. -/
theorem hasSub_append_cases (x y t : Str) (h : HasSub (x ++ y) t) :
    HasSub x t ∨ HasSub y t ∨
      ∃ p q, p ≠ [] ∧ q ≠ [] ∧ t = p ++ q ∧ (∃ u, x = u ++ p) ∧ ∃ v, y = q ++ v := by
  obtain ⟨u, v, huv⟩ := h
  rw [List.append_assoc] at huv
  rcases List.append_eq_append_iff.mp huv with ⟨a, hu, hy⟩ | ⟨p, hx, hd⟩
  · exact Or.inr (Or.inl ⟨a, v, by rw [hy, List.append_assoc]⟩)
  · rcases List.append_eq_append_iff.mp hd with ⟨a2, hp, hv⟩ | ⟨q, ht, hy2⟩
    · exact Or.inl ⟨u, a2, by rw [hx, hp, List.append_assoc]⟩
    · rcases eq_or_ne p [] with rfl | hpne
      · simp only [List.nil_append] at ht
        exact Or.inr (Or.inl ⟨[], v, by rw [hy2, ht]; simp⟩)
      · rcases eq_or_ne q [] with rfl | hqne
        · simp only [List.append_nil] at ht
          exact Or.inl ⟨u, [], by rw [hx, ← ht]; simp⟩
        · exact Or.inr (Or.inr ⟨p, q, hpne, hqne, ht, ⟨u, hx⟩, ⟨v, hy2⟩⟩)

theorem getLast?_mem_of_eq (l : Str) (c : Char) (h : l.getLast? = some c) : c ∈ l := by
  induction l with
  | nil => simp at h
  | cons d l' ih =>
    cases l' with
    | nil =>
      simp [List.getLast?] at h
      simp [h]
    | cons e l'' =>
      rw [List.getLast?_cons_cons] at h
      exact List.mem_cons_of_mem d (ih h)

theorem getLast?_decomp (l : Str) (c : Char) (h : l.getLast? = some c) :
    ∃ l', l = l' ++ [c] := by
  induction l with
  | nil => simp at h
  | cons d l' ih =>
    cases l' with
    | nil =>
      simp [List.getLast?] at h
      exact ⟨[], by simp [h]⟩
    | cons e l'' =>
      rw [List.getLast?_cons_cons] at h
      obtain ⟨m, hm⟩ := ih h
      exact ⟨d :: m, by rw [hm]; rfl⟩

/-- Inserting `t` at a junction whose right side starts with a character
not in `tag` cannot destroy an occurrence of `tag`. -/
theorem hasSub_insert_head (x t y tag : Str) (c : Char) (ys : Str)
    (hy : y = c :: ys) (hc : c ∉ tag) (h : HasSub (x ++ y) tag) :
    HasSub (x ++ t ++ y) tag := by
  rcases hasSub_append_cases x y tag h with hx | hy' | ⟨p, q, _, hq, htag, _, ⟨v, hyv⟩⟩
  · exact hasSub_of_left _ _ _ (hasSub_of_left _ _ _ hx)
  · exact hasSub_of_right _ _ _ hy'
  · exfalso
    cases q with
    | nil => exact hq rfl
    | cons q0 q' =>
      rw [hyv, List.cons_append] at hy
      injection hy with h1 _
      apply hc
      rw [htag, h1]
      exact List.mem_append_right p (List.mem_cons_self c q')

/-- Inserting `t` at a junction whose left side ends with a character not
in `tag` cannot destroy an occurrence of `tag`. -/
theorem hasSub_insert_last (x t y tag : Str) (c : Char) (xs : Str)
    (hx : x = xs ++ [c]) (hc : c ∉ tag) (h : HasSub (x ++ y) tag) :
    HasSub (x ++ t ++ y) tag := by
  rcases hasSub_append_cases x y tag h with hx' | hy' | ⟨p, q, hp, _, htag, ⟨u, hxu⟩, _⟩
  · exact hasSub_of_left _ _ _ (hasSub_of_left _ _ _ hx')
  · exact hasSub_of_right _ _ _ hy'
  · exfalso
    apply hc
    have hpl : p.getLast? = some c := by
      have h1 : (u ++ p).getLast? = p.getLast? := List.getLast?_append_of_ne_nil u hp
      rw [← hxu, hx, List.getLast?_concat] at h1
      exact h1.symm
    rw [htag]
    exact List.mem_append_left q (getLast?_mem_of_eq p c hpl)

/-- Inserting `t` at a junction whose right side starts with `//` cannot
destroy an occurrence of `tag`, provided `tag` does not end in `/` and does
not contain `//`. -/
theorem hasSub_insert_slashes (x t y tag : Str) (ys : Str)
    (hy : y = '/' :: '/' :: ys)
    (hlast : tag.getLast? ≠ some '/')
    (hss : ¬ HasSub tag ['/', '/'])
    (h : HasSub (x ++ y) tag) :
    HasSub (x ++ t ++ y) tag := by
  rcases hasSub_append_cases x y tag h with hx' | hy' | ⟨p, q, _, hq, htag, _, ⟨v, hyv⟩⟩
  · exact hasSub_of_left _ _ _ (hasSub_of_left _ _ _ hx')
  · exact hasSub_of_right _ _ _ hy'
  · exfalso
    cases q with
    | nil => exact hq rfl
    | cons q0 q' =>
      rw [hyv, List.cons_append] at hy
      injection hy with h1 hrest
      subst h1
      cases q' with
      | nil =>
        apply hlast
        rw [htag, List.getLast?_concat]
      | cons q1 q'' =>
        rw [List.cons_append] at hrest
        injection hrest with h2 _
        subst h2
        exact hss ⟨p, q'', by simp [htag]⟩

theorem replaceFirst_startsWith (s old new : Str) (ho : old ≠ [])
    (h : startsWith s old = true) :
    replaceFirst s old new = new ++ s.drop old.length := by
  cases s with
  | nil =>
    cases old with
    | nil => exact absurd rfl ho
    | cons d l => simp [startsWith] at h
  | cons c s' => simp [replaceFirst, h]

theorem replaceFirst_decomp (s old new : Str) (ho : old ≠ [])
    (h : containsSub s old = true) :
    ∃ u v, s = u ++ old ++ v ∧ replaceFirst s old new = u ++ new ++ v := by
  induction s with
  | nil =>
    simp [containsSub, List.isEmpty_iff] at h
    exact absurd h ho
  | cons c s' ih =>
    by_cases hs : startsWith (c :: s') old = true
    · obtain ⟨r, hr⟩ := (startsWith_iff _ _).mp hs
      refine ⟨[], r, by simpa using hr, ?_⟩
      rw [replaceFirst_startsWith _ _ new ho hs, hr, List.drop_left]
      simp
    · have hs' : startsWith (c :: s') old = false := by
        simpa using hs
      have h' : containsSub s' old = true := by
        simpa [containsSub, hs'] using h
      obtain ⟨u, v, h1, h2⟩ := ih h'
      refine ⟨c :: u, v, by simp [h1], ?_⟩
      have hstep : replaceFirst (c :: s') old new = c :: replaceFirst s' old new := by
        simp [replaceFirst, hs']
      rw [hstep, h2]
      rfl

theorem mem_joinMap (f : Nat → List Nat) (ks : List Nat) (n : Nat) :
    n ∈ joinMap f ks ↔ ∃ k, k ∈ ks ∧ n ∈ f k := by
  induction ks with
  | nil => simp [joinMap]
  | cons k ks ih =>
    simp only [joinMap, List.mem_append, ih, List.mem_cons]
    constructor
    · rintro (h | ⟨k', hk', hn⟩)
      · exact ⟨k, Or.inl rfl, h⟩
      · exact ⟨k', Or.inr hk', hn⟩
    · rintro ⟨k', hk' | hk', hn⟩
      · exact Or.inl (hk' ▸ hn)
      · exact Or.inr ⟨k', hk', hn⟩

/-- Every accepted prefix of a pattern whose final item is the nonempty
literal `L` ends with `L`. -/
theorem runAll_ends (items : List RItem) (L : Str) :
    ∀ (s : Str) (n : Nat), lastLit items = some L → L ≠ [] →
      n ∈ runAll items s → ∃ w, s.take n = w ++ L := by
  induction items with
  | nil => intro s n hL _ _; simp [lastLit] at hL
  | cons it rest ih =>
    intro s n hL hLne hmem
    cases rest with
    | nil =>
      cases it with
      | lit l =>
        have hl : l = L := by simpa [lastLit] using hL
        subst hl
        simp only [runAll] at hmem
        by_cases hsw : startsWith s l = true
        · simp only [hsw, if_true, runAll, List.map, List.mem_singleton] at hmem
          obtain ⟨r, hr⟩ := (startsWith_iff _ _).mp hsw
          subst hmem
          refine ⟨[], ?_⟩
          simp [hr, List.take_left]
        · simp [hsw] at hmem
      | optC c => simp [lastLit] at hL
      | optIn cs => simp [lastLit] at hL
      | starNot cs => simp [lastLit] at hL
      | starLazy cs => simp [lastLit] at hL
    | cons it2 rest' =>
      have hL' : lastLit (it2 :: rest') = some L := by simpa [lastLit] using hL
      cases it with
      | lit l =>
        simp only [runAll] at hmem
        by_cases hsw : startsWith s l = true
        · simp only [hsw, if_true, List.mem_map] at hmem
          obtain ⟨n', hn', rfl⟩ := hmem
          obtain ⟨w, hw⟩ := ih (s.drop l.length) n' hL' hLne hn'
          refine ⟨s.take l.length ++ w, ?_⟩
          rw [List.take_add, hw, List.append_assoc]
        · simp [hsw] at hmem
      | optC c =>
        cases s with
        | nil =>
          simp only [runAll] at hmem
          exact ih [] n hL' hLne hmem
        | cons c' s' =>
          simp only [runAll] at hmem
          by_cases hc : c' = c
          · simp only [if_pos hc, List.mem_append, List.mem_map] at hmem
            rcases hmem with ⟨n', hn', rfl⟩ | hmem
            · obtain ⟨w, hw⟩ := ih s' n' hL' hLne hn'
              refine ⟨c' :: w, ?_⟩
              rw [List.take_succ_cons, hw]
              rfl
            · exact ih (c' :: s') n hL' hLne hmem
          · simp only [if_neg hc] at hmem
            exact ih (c' :: s') n hL' hLne hmem
      | optIn cs =>
        cases s with
        | nil =>
          simp only [runAll] at hmem
          exact ih [] n hL' hLne hmem
        | cons c' s' =>
          simp only [runAll] at hmem
          by_cases hc : c' ∈ cs
          · simp only [if_pos hc, List.mem_append, List.mem_map] at hmem
            rcases hmem with ⟨n', hn', rfl⟩ | hmem
            · obtain ⟨w, hw⟩ := ih s' n' hL' hLne hn'
              refine ⟨c' :: w, ?_⟩
              rw [List.take_succ_cons, hw]
              rfl
            · exact ih (c' :: s') n hL' hLne hmem
          · simp only [if_neg hc] at hmem
            exact ih (c' :: s') n hL' hLne hmem
      | starNot cs =>
        simp only [runAll] at hmem
        obtain ⟨k, _, hn⟩ := (mem_joinMap _ _ _).mp hmem
        simp only [List.mem_map] at hn
        obtain ⟨n', hn', rfl⟩ := hn
        obtain ⟨w, hw⟩ := ih (s.drop k) n' hL' hLne hn'
        refine ⟨s.take k ++ w, ?_⟩
        rw [List.take_add, hw, List.append_assoc]
      | starLazy cs =>
        simp only [runAll] at hmem
        obtain ⟨k, _, hn⟩ := (mem_joinMap _ _ _).mp hmem
        simp only [List.mem_map] at hn
        obtain ⟨n', hn', rfl⟩ := hn
        obtain ⟨w, hw⟩ := ih (s.drop k) n' hL' hLne hn'
        refine ⟨s.take k ++ w, ?_⟩
        rw [List.take_add, hw, List.append_assoc]

/-- Every accepted prefix of a pattern that opens with the literal `l`
starts with `l`. -/
theorem runAll_opens (l : Str) (rest : List RItem) (s : Str) (n : Nat)
    (h : n ∈ runAll (.lit l :: rest) s) : ∃ r, s.take n = l ++ r := by
  simp only [runAll] at h
  by_cases hsw : startsWith s l = true
  · simp only [hsw, if_true, List.mem_map] at h
    obtain ⟨n', _, rfl⟩ := h
    obtain ⟨r0, hr0⟩ := (startsWith_iff _ _).mp hsw
    refine ⟨(s.drop l.length).take n', ?_⟩
    rw [List.take_add]
    congr 1
    rw [hr0, List.take_left]
  · simp [hsw] at h

theorem runFrom_mem (p : List RItem) (s : Str) (n : Nat)
    (h : runFrom p s = some n) : n ∈ runAll p s := by
  unfold runFrom at h
  cases hl : runAll p s with
  | nil => rw [hl] at h; simp at h
  | cons a tl =>
    rw [hl] at h
    simp only [List.head?] at h
    injection h with h1
    exact h1 ▸ List.mem_cons_self a tl

/-- The `href="/…"` replacement (`href="` ++ INS ++ link[6:] ++ `"`) keeps
every `</head>` occurrence: both insertions sit right after a double quote. -/
theorem href_insert_keeps (m a b ins : Str)
    (hq : m.getLast? = some quoteC)
    (h6 : startsWith m (S "href=\"/") = true)
    (h : HasSub (a ++ m ++ b) headEndTag) :
    HasSub (a ++ (S "href=\"" ++ ins ++ m.drop 6 ++ [quoteC]) ++ b) headEndTag := by
  obtain ⟨r7, hr7⟩ := (startsWith_iff _ _).mp h6
  have hd6 : m.drop 6 = '/' :: r7 := by rw [hr7]; rfl
  have hm6 : m = S "href=\"" ++ m.drop 6 := by rw [hd6, hr7]; rfl
  have hne : m.drop 6 ≠ [] := by rw [hd6]; simp
  have hdq : (m.drop 6).getLast? = some quoteC := by
    have hga := List.getLast?_append_of_ne_nil (S "href=\"") hne
    rw [← hm6] at hga
    rw [← hga]
    exact hq
  obtain ⟨d', hd'⟩ := getLast?_decomp _ _ hdq
  rw [hm6] at h
  have hnorm1 : a ++ (S "href=\"" ++ m.drop 6) ++ b
      = (a ++ S "href=\"") ++ (m.drop 6 ++ b) := by
    simp [List.append_assoc]
  rw [hnorm1] at h
  have hx1 : a ++ S "href=\"" = (a ++ S "href=") ++ [quoteC] := by
    simp [show S "href=\"" = S "href=" ++ [quoteC] from by decide, List.append_assoc]
  have step1 := hasSub_insert_last (a ++ S "href=\"") ins (m.drop 6 ++ b) headEndTag
    quoteC (a ++ S "href=") hx1 (by decide) h
  have hnorm2 : (a ++ S "href=\"") ++ ins ++ (m.drop 6 ++ b)
      = ((a ++ S "href=\"" ++ ins ++ d') ++ [quoteC]) ++ b := by
    rw [hd']
    simp [List.append_assoc]
  rw [hnorm2] at step1
  have step2 := hasSub_insert_last ((a ++ S "href=\"" ++ ins ++ d') ++ [quoteC])
    [quoteC] b headEndTag quoteC (a ++ S "href=\"" ++ ins ++ d') rfl (by decide) step1
  simpa [hd', List.append_assoc] using step2

/-- The `src="/…"` replacement (`src="` ++ INS ++ link[5:] ++ `"`) keeps
every `</head>` occurrence, for the same reason. -/
theorem src_insert_keeps (m a b ins : Str)
    (hq : m.getLast? = some quoteC)
    (h5 : startsWith m (S "src=\"/") = true)
    (h : HasSub (a ++ m ++ b) headEndTag) :
    HasSub (a ++ (S "src=\"" ++ ins ++ m.drop 5 ++ [quoteC]) ++ b) headEndTag := by
  obtain ⟨r6, hr6⟩ := (startsWith_iff _ _).mp h5
  have hd5 : m.drop 5 = '/' :: r6 := by rw [hr6]; rfl
  have hm5 : m = S "src=\"" ++ m.drop 5 := by rw [hd5, hr6]; rfl
  have hne : m.drop 5 ≠ [] := by rw [hd5]; simp
  have hdq : (m.drop 5).getLast? = some quoteC := by
    have hga := List.getLast?_append_of_ne_nil (S "src=\"") hne
    rw [← hm5] at hga
    rw [← hga]
    exact hq
  obtain ⟨d', hd'⟩ := getLast?_decomp _ _ hdq
  rw [hm5] at h
  have hnorm1 : a ++ (S "src=\"" ++ m.drop 5) ++ b
      = (a ++ S "src=\"") ++ (m.drop 5 ++ b) := by
    simp [List.append_assoc]
  rw [hnorm1] at h
  have hx1 : a ++ S "src=\"" = (a ++ S "src=") ++ [quoteC] := by
    simp [show S "src=\"" = S "src=" ++ [quoteC] from by decide, List.append_assoc]
  have step1 := hasSub_insert_last (a ++ S "src=\"") ins (m.drop 5 ++ b) headEndTag
    quoteC (a ++ S "src=") hx1 (by decide) h
  have hnorm2 : (a ++ S "src=\"") ++ ins ++ (m.drop 5 ++ b)
      = ((a ++ S "src=\"" ++ ins ++ d') ++ [quoteC]) ++ b := by
    rw [hd']
    simp [List.append_assoc]
  rw [hnorm2] at step1
  have step2 := hasSub_insert_last ((a ++ S "src=\"" ++ ins ++ d') ++ [quoteC])
    [quoteC] b headEndTag quoteC (a ++ S "src=\"" ++ ins ++ d') rfl (by decide) step1
  simpa [hd', List.append_assoc] using step2

/-- The replacement callback never destroys a `</head>` occurrence, for any
matched text that ends in a double quote whenever the `href="/` / `src="/`
branches can fire (which every actual pattern match does). -/
theorem rewriteLink_keeps (m a b : Str)
    (hC : startsWith m (S "href=\"/") = true → m.getLast? = some quoteC)
    (hD : startsWith m (S "src=\"/") = true → m.getLast? = some quoteC)
    (h : HasSub (a ++ m ++ b) headEndTag) :
    HasSub (a ++ rewriteLink m ++ b) headEndTag := by
  unfold rewriteLink
  by_cases h1 : containsSub m (S "//") = true
  · rw [if_pos h1]
    by_cases h2 : containsSub m wikiOrg = true
    · rw [if_pos h2]
      obtain ⟨u, v, hm, hr⟩ := replaceFirst_decomp m wikiOrg mWikiOrg (by decide) h2
      rw [hr]
      rw [hm] at h
      have hnorm : a ++ (u ++ wikiOrg ++ v) ++ b
          = (a ++ u) ++ (wikiOrg ++ (v ++ b)) := by
        simp [List.append_assoc]
      rw [hnorm] at h
      have step := hasSub_insert_head (a ++ u) (S "m-") (wikiOrg ++ (v ++ b)) headEndTag
        'w' (S "ikipedia.org" ++ (v ++ b)) rfl (by decide) h
      simpa [show mWikiOrg = S "m-" ++ wikiOrg from by decide, List.append_assoc] using step
    · rw [if_neg h2]
      by_cases h3 : startsWith m (S "src=\"//") = true
      · rw [if_pos h3]
        obtain ⟨r0, hr0⟩ := (startsWith_iff _ _).mp h3
        rw [replaceFirst_startsWith m _ _ (by decide) h3]
        have hd : m.drop (S "src=\"//").length = r0 := by rw [hr0, List.drop_left]
        rw [hd]
        rw [hr0] at h
        have hnorm : a ++ (S "src=\"//" ++ r0) ++ b
            = (a ++ S "src=\"") ++ ('/' :: '/' :: (r0 ++ b)) := by
          rw [show S "src=\"//" = S "src=\"" ++ ['/', '/'] from by decide]
          simp [List.append_assoc]
        rw [hnorm] at h
        have step := hasSub_insert_slashes (a ++ S "src=\"") (S "https:")
          ('/' :: '/' :: (r0 ++ b)) headEndTag (r0 ++ b) rfl (by decide)
          (fun hcon => absurd ((containsSub_iff _ _).mpr hcon) (by decide)) h
        simpa [show S "src=\"https://" = S "src=\"" ++ S "https:" ++ ['/', '/'] from by decide,
          List.append_assoc] using step
      · rw [if_neg h3]
        by_cases h4 : containsSub m (S "url(//") = true
        · rw [if_pos h4]
          obtain ⟨u, v, hm, hr⟩ := replaceFirst_decomp m (S "url(//") (S "url(https://")
            (by decide) h4
          rw [hr]
          rw [hm] at h
          have hnorm : a ++ (u ++ S "url(//" ++ v) ++ b
              = (a ++ (u ++ S "url(")) ++ ('/' :: '/' :: (v ++ b)) := by
            rw [show S "url(//" = S "url(" ++ ['/', '/'] from by decide]
            simp [List.append_assoc]
          rw [hnorm] at h
          have step := hasSub_insert_slashes (a ++ (u ++ S "url(")) (S "https:")
            ('/' :: '/' :: (v ++ b)) headEndTag (v ++ b) rfl (by decide)
            (fun hcon => absurd ((containsSub_iff _ _).mpr hcon) (by decide)) h
          simpa [show S "url(https://" = S "url(" ++ S "https:" ++ ['/', '/'] from by decide,
            List.append_assoc] using step
        · rw [if_neg h4]
          by_cases h5 : containsSub m (S "@import") = true
          · rw [if_pos h5]
            obtain ⟨u, v, hm, hr⟩ := replaceFirst_decomp m (S "//") (S "https://")
              (by decide) h1
            rw [hr]
            rw [hm] at h
            have hnorm : a ++ (u ++ S "//" ++ v) ++ b
                = (a ++ u) ++ ('/' :: '/' :: (v ++ b)) := by
              rw [show (S "//" : Str) = ['/', '/'] from rfl]
              simp [List.append_assoc]
            rw [hnorm] at h
            have step := hasSub_insert_slashes (a ++ u) (S "https:")
              ('/' :: '/' :: (v ++ b)) headEndTag (v ++ b) rfl (by decide)
              (fun hcon => absurd ((containsSub_iff _ _).mpr hcon) (by decide)) h
            simpa [show S "https://" = S "https:" ++ ['/', '/'] from by decide,
              List.append_assoc] using step
          · rw [if_neg h5]
            exact h
  · rw [if_neg h1]
    by_cases h6 : startsWith m (S "href=\"/") = true
    · rw [if_pos h6]
      by_cases h7 : containsSub m (S "/wiki/") = true
      · rw [if_pos h7]
        have step := href_insert_keeps m a b (S "https://m-wikipedia.org") (hC h6) h6 h
        simpa [show S "href=\"https://m-wikipedia.org"
            = S "href=\"" ++ S "https://m-wikipedia.org" from by decide,
          List.append_assoc] using step
      · rw [if_neg h7]
        by_cases h8 : containsSub m (S "/w/") = true
        · rw [if_pos h8]
          have step := href_insert_keeps m a b (S "https://wikipedia.org") (hC h6) h6 h
          simpa [show S "href=\"https://wikipedia.org"
              = S "href=\"" ++ S "https://wikipedia.org" from by decide,
            List.append_assoc] using step
        · rw [if_neg h8]
          exact h
    · rw [if_neg h6]
      by_cases h9 : startsWith m (S "src=\"/") = true
      · rw [if_pos h9]
        have step := src_insert_keeps m a b (S "https://wikipedia.org") (hD h9) h9 h
        simpa [show S "src=\"https://wikipedia.org"
            = S "src=\"" ++ S "https://wikipedia.org" from by decide,
          List.append_assoc] using step
      · rw [if_neg h9]
        exact h

/-- The leftmost-scan replacement pass never destroys a `</head>`
occurrence, given that each individual replacement keeps it. -/
theorem replaceAllFuel_keeps (p : List RItem)
    (hf : ∀ (s : Str) (n : Nat) (a b : Str), n ∈ runAll p s →
        HasSub (a ++ s.take n ++ b) headEndTag →
        HasSub (a ++ rewriteLink (s.take n) ++ b) headEndTag) :
    ∀ (fuel : Nat) (s a b : Str), HasSub (a ++ s ++ b) headEndTag →
      HasSub (a ++ replaceAllFuel p rewriteLink fuel s ++ b) headEndTag := by
  intro fuel
  induction fuel with
  | zero =>
    intro s a b h
    cases s with
    | nil => simpa [replaceAllFuel] using h
    | cons c s' => simpa [replaceAllFuel] using h
  | succ fuel ih =>
    intro s a b h
    cases s with
    | nil => simpa [replaceAllFuel] using h
    | cons c s' =>
      cases hrf : runFrom p (c :: s') with
      | none =>
        simp only [replaceAllFuel, hrf]
        have h' : HasSub ((a ++ [c]) ++ s' ++ b) headEndTag := by
          simpa [List.append_assoc] using h
        have hrec := ih s' (a ++ [c]) b h'
        simpa [List.append_assoc] using hrec
      | some n =>
        simp only [replaceAllFuel, hrf]
        by_cases hn : 0 < n
        · rw [if_pos hn]
          have hmem := runFrom_mem p (c :: s') n hrf
          have hsplit : (c :: s') = (c :: s').take n ++ (c :: s').drop n :=
            (List.take_append_drop n (c :: s')).symm
          rw [hsplit] at h
          have h' : HasSub (a ++ (c :: s').take n ++ ((c :: s').drop n ++ b)) headEndTag := by
            simpa only [List.append_assoc] using h
          have step := hf (c :: s') n a ((c :: s').drop n ++ b) hmem h'
          have hrec := ih ((c :: s').drop n) (a ++ rewriteLink ((c :: s').take n)) b
            (by simpa only [List.append_assoc] using step)
          simpa only [List.append_assoc] using hrec
        · rw [if_neg hn]
          have h' : HasSub ((a ++ [c]) ++ s' ++ b) headEndTag := by
            simpa [List.append_assoc] using h
          have hrec := ih s' (a ++ [c]) b h'
          simpa [List.append_assoc] using hrec

/-- Replacement-keeps-tag fact for the patterns whose final item is the
literal `"` (patterns 1-6 and 8): every match ends in a double quote. -/
theorem hf_quote (p : List RItem) (hlast : lastLit p = some [quoteC]) :
    ∀ (s : Str) (n : Nat) (a b : Str), n ∈ runAll p s →
      HasSub (a ++ s.take n ++ b) headEndTag →
      HasSub (a ++ rewriteLink (s.take n) ++ b) headEndTag := by
  intro s n a b hmem h
  obtain ⟨w, hw⟩ := runAll_ends p [quoteC] s n hlast (by simp) hmem
  have hq : (s.take n).getLast? = some quoteC := by rw [hw, List.getLast?_concat]
  exact rewriteLink_keeps _ a b (fun _ => hq) (fun _ => hq) h

/-- Replacement-keeps-tag fact for the patterns opening with a literal whose
first character is neither `h` nor `s` (patterns 7 and 9): the `href="/` and
`src="/` branches of the callback cannot fire on their matches. -/
theorem hf_opens (l : Str) (rest : List RItem) (c0 : Char) (lt : Str)
    (hl : l = c0 :: lt) (hc1 : c0 ≠ 'h') (hc2 : c0 ≠ 's') :
    ∀ (s : Str) (n : Nat) (a b : Str), n ∈ runAll (.lit l :: rest) s →
      HasSub (a ++ s.take n ++ b) headEndTag →
      HasSub (a ++ rewriteLink (s.take n) ++ b) headEndTag := by
  intro s n a b hmem h
  obtain ⟨r, hr⟩ := runAll_opens l rest s n hmem
  have hhead : (s.take n).head? = some c0 := by rw [hr, hl]; rfl
  have hC : startsWith (s.take n) (S "href=\"/") = true →
      (s.take n).getLast? = some quoteC := by
    intro hcontra
    exfalso
    obtain ⟨r2, hr2⟩ := (startsWith_iff _ _).mp hcontra
    have hh : (s.take n).head? = some 'h' := by rw [hr2]; rfl
    rw [hhead] at hh
    injection hh with hh1
    exact hc1 hh1
  have hD : startsWith (s.take n) (S "src=\"/") = true →
      (s.take n).getLast? = some quoteC := by
    intro hcontra
    exfalso
    obtain ⟨r2, hr2⟩ := (startsWith_iff _ _).mp hcontra
    have hh : (s.take n).head? = some 's' := by rw [hr2]; rfl
    rw [hhead] at hh
    injection hh with hh1
    exact hc2 hh1
  exact rewriteLink_keeps _ a b hC hD h

theorem replaceAllFunc_keeps (p : List RItem)
    (hf : ∀ (s : Str) (n : Nat) (a b : Str), n ∈ runAll p s →
        HasSub (a ++ s.take n ++ b) headEndTag →
        HasSub (a ++ rewriteLink (s.take n) ++ b) headEndTag)
    (s : Str) (h : HasSub s headEndTag) :
    HasSub (replaceAllFunc p rewriteLink s) headEndTag := by
  have hmain := replaceAllFuel_keeps p hf s.length s [] [] (by simpa using h)
  simpa [replaceAllFunc] using hmain

/-- The nine ordered rewrite passes never destroy a `</head>` occurrence. -/
theorem applyAllPatterns_keeps (content : Str) (h : HasSub content headEndTag) :
    HasSub (applyAllPatterns content) headEndTag := by
  have s1 := replaceAllFunc_keeps pat1 (hf_quote pat1 rfl) content h
  have s2 := replaceAllFunc_keeps pat2 (hf_quote pat2 rfl) _ s1
  have s3 := replaceAllFunc_keeps pat3 (hf_quote pat3 rfl) _ s2
  have s4 := replaceAllFunc_keeps pat4 (hf_quote pat4 rfl) _ s3
  have s5 := replaceAllFunc_keeps pat5 (hf_quote pat5 rfl) _ s4
  have s6 := replaceAllFunc_keeps pat6 (hf_quote pat6 rfl) _ s5
  have s7 := replaceAllFunc_keeps pat7
    (hf_opens (S "url(") [.optIn [apostC, quoteC], .lit (S "//"),
      .starLazy [apostC, quoteC], .optIn [apostC, quoteC], .lit (S ")")]
      'u' (S "rl(") rfl (by decide) (by decide)) _ s6
  have s8 := replaceAllFunc_keeps pat8 (hf_quote pat8 rfl) _ s7
  have s9 := replaceAllFunc_keeps pat9
    (hf_opens (S "@import url(\"//") [.starLazy [quoteC], .lit (S "\")")]
      '@' (S "import url(\"//") rfl (by decide) (by decide)) _ s8
  simpa [applyAllPatterns, patternList] using s9

/-- C1 counterexample: the input holds the exact substring
`href="https://en.wikipedia.org/wiki/Go"`, yet the output does not contain
`href="https://m-wikipedia.org/wiki/Go"`: the engine swaps only the first
occurrence of `wikipedia.org` inside the matched link, so the subdomain
survives and the output link is `href="https://en.m-wikipedia.org/wiki/Go"`. -/
theorem absolute_link_subdomain_cex :
    containsSub (S "href=\"https://en.wikipedia.org/wiki/Go\"")
      (S "href=\"https://en.wikipedia.org/wiki/Go\"") = true ∧
    containsSub
      (modifyWikipediaContent (S "href=\"https://en.wikipedia.org/wiki/Go\"")
        (S "text/html"))
      (S "href=\"https://m-wikipedia.org/wiki/Go\"") = false := by
  decide

/-- C1 amended: for the HTML input `href="https://en.wikipedia.org/wiki/Go"`
the engine produces `href="https://en.m-wikipedia.org/wiki/Go"` — the origin
domain is replaced by the mirror domain in place, preserving the subdomain
prefix and the path suffix. -/
theorem absolute_link_subdomain_preserved :
    modifyWikipediaContent (S "href=\"https://en.wikipedia.org/wiki/Go\"")
        (S "text/html")
      = S "href=\"https://en.m-wikipedia.org/wiki/Go\"" := by
  decide

/-- C2 counterexample: the input `href="/wiki/href="/wiki/Cat"` contains the
root-relative content link `href="/wiki/Cat"` (with `Cat` quote-free), but
the leftmost match of the `/wiki/` pattern consumes `href="/wiki/href="`,
so the `Cat` link is never rewritten and the output does not contain
`href="https://m-wikipedia.org/wiki/Cat"`. -/
theorem root_relative_overlap_cex :
    containsSub (S "href=\"/wiki/href=\"/wiki/Cat\"") (S "href=\"/wiki/Cat\"") = true ∧
    containsSub
      (modifyWikipediaContent (S "href=\"/wiki/href=\"/wiki/Cat\"") (S "text/html"))
      (S "href=\"https://m-wikipedia.org/wiki/Cat\"") = false := by
  decide

/-- C2 amended: for the spec's example inputs taken on their own, the
rewrites happen as described — `href="/wiki/Cat"` becomes a mirror-domain
link and `href="/w/index.php"` becomes an origin-domain link (each carrying
the engine's duplicated closing quote), so the outputs contain the claimed
substrings. -/
theorem root_relative_examples_rewritten :
    modifyWikipediaContent (S "href=\"/wiki/Cat\"") (S "text/html")
        = S "href=\"https://m-wikipedia.org/wiki/Cat\"\"" ∧
    modifyWikipediaContent (S "href=\"/w/index.php\"") (S "text/html")
        = S "href=\"https://wikipedia.org/w/index.php\"\"" ∧
    containsSub (modifyWikipediaContent (S "href=\"/wiki/Cat\"") (S "text/html"))
        (S "href=\"https://m-wikipedia.org/wiki/Cat\"") = true ∧
    containsSub (modifyWikipediaContent (S "href=\"/w/index.php\"") (S "text/html"))
        (S "href=\"https://wikipedia.org/w/index.php\"") = true := by
  refine ⟨by decide, by decide, by decide, by decide⟩

/-- C3: for every content and every content type not containing
`text/html`, the rewrite engine returns the content unchanged. -/
theorem non_html_passthrough (content contentType : Str)
    (h : containsSub contentType (S "text/html") = false) :
    modifyWikipediaContent content contentType = content := by
  unfold modifyWikipediaContent
  rw [if_pos h]

theorem non_html_passthrough_witness :
    containsSub (S "text/css") (S "text/html") = false ∧
    modifyWikipediaContent (S "a.css-rule") (S "text/css") = S "a.css-rule" :=
  ⟨by decide, non_html_passthrough (S "a.css-rule") (S "text/css") (by decide)⟩

/-- C5 counterexample: the protocol-relative origin link
`href="//en.wikipedia.org/wiki/Go"` is only domain-swapped; the output is
`href="//en.m-wikipedia.org/wiki/Go"` and contains no `https` at all, so no
https-schemed mirror link is produced. -/
theorem protocol_relative_no_scheme_cex :
    modifyWikipediaContent (S "href=\"//en.wikipedia.org/wiki/Go\"") (S "text/html")
        = S "href=\"//en.m-wikipedia.org/wiki/Go\"" ∧
    containsSub
      (modifyWikipediaContent (S "href=\"//en.wikipedia.org/wiki/Go\"") (S "text/html"))
      (S "https") = false := by
  refine ⟨by decide, by decide⟩

/-- C5 amended: a protocol-relative origin `href` link is rewritten to a
protocol-relative mirror-domain link — the first occurrence of the origin
domain is replaced by the mirror domain and the scheme is left alone. -/
theorem protocol_relative_domain_swap :
    modifyWikipediaContent (S "href=\"//wikipedia.org/wiki/Go\"") (S "text/html")
      = S "href=\"//m-wikipedia.org/wiki/Go\"" := by
  decide

/-- C6 counterexample: the engine is not idempotent — the already
mirror-rewritten link `href="https://m-wikipedia.org/wiki/Go"` is re-matched
by the absolute-origin pattern (whose `[^/]*` accepts the `m-` prefix) and
changed again. -/
theorem rewrite_not_idempotent_cex :
    modifyWikipediaContent
        (modifyWikipediaContent (S "href=\"https://m-wikipedia.org/wiki/Go\"")
          (S "text/html"))
        (S "text/html")
      ≠ modifyWikipediaContent (S "href=\"https://m-wikipedia.org/wiki/Go\"")
          (S "text/html") := by
  decide

/-- C6 amended: re-applying the engine to an already-mirror-rewritten
absolute link prepends another `m-` to the domain: one application turns
the origin link into the mirror link, and a second application turns the
mirror link into an `m-m-wikipedia.org` link. -/
theorem rewrite_second_application :
    modifyWikipediaContent (S "href=\"https://wikipedia.org/wiki/Go\"") (S "text/html")
        = S "href=\"https://m-wikipedia.org/wiki/Go\"" ∧
    modifyWikipediaContent (S "href=\"https://m-wikipedia.org/wiki/Go\"") (S "text/html")
        = S "href=\"https://m-m-wikipedia.org/wiki/Go\"" := by
  refine ⟨by decide, by decide⟩

/-- C7: any method other than GET is rejected with 405, and the handler
performs no upstream fetch, no rewrite, and no static lookup, whatever the
path. -/
theorem non_get_method_rejected (fetch : Str → Option (Str × Str))
    (fs : Str → Option Str) (mimeForPath : Str → Str) (method urlPath : Str)
    (h : method ≠ S "GET") :
    proxyHandler fetch fs mimeForPath method urlPath
      = ⟨405, some (S "Method not allowed"), none, none, [], false, false⟩ := by
  unfold proxyHandler
  rw [if_pos h]

theorem non_get_method_rejected_witness :
    proxyHandler (fun _ => none) (fun _ => none) (fun _ => []) (S "POST")
        (S "/static/custom.css")
      = ⟨405, some (S "Method not allowed"), none, none, [], false, false⟩ ∧
    proxyHandler (fun _ => none) (fun _ => none) (fun _ => []) (S "PUT") (S "/w/index.php")
      = ⟨405, some (S "Method not allowed"), none, none, [], false, false⟩ :=
  ⟨non_get_method_rejected _ _ _ _ _ (by decide),
   non_get_method_rejected _ _ _ _ _ (by decide)⟩

/-- C8: the static handler is a closed allow-list on the exact file name —
any name other than `custom.css` and `custom.js` yields 404 with no file
read, and `custom.css` present on disk yields 200 with `Content-Type:
text/css` and `Cache-Control: public, max-age=86400`. -/
theorem static_allowlist :
    (∀ (fs : Str → Option Str) (urlPath : Str),
        trimPre urlPath (S "/static/") ≠ S "custom.css" →
        trimPre urlPath (S "/static/") ≠ S "custom.js" →
        staticHandler fs urlPath = ⟨404, none, none, some (S "404 page not found"), []⟩) ∧
    (∀ (fs : Str → Option Str) (content : Str),
        fs (S "./static/custom.css") = some content →
        staticHandler fs (S "/static/custom.css")
          = ⟨200, some (S "text/css"), some (S "public, max-age=86400"), some content,
              [S "./static/custom.css"]⟩) := by
  constructor
  · intro fs urlPath h1 h2
    unfold staticHandler
    rw [if_neg h1, if_neg h2]
  · intro fs content h
    have ht : trimPre (S "/static/custom.css") (S "/static/") = S "custom.css" := by decide
    have ha : S "./static/" ++ S "custom.css" = S "./static/custom.css" := by decide
    simp [staticHandler, ht, ha, h]

theorem static_allowlist_witness :
    staticHandler (fun _ => none) (S "/static/unknown.txt")
      = ⟨404, none, none, some (S "404 page not found"), []⟩ ∧
    staticHandler
        (fun p => if p = S "./static/custom.css" then some (S "cssbody") else none)
        (S "/static/custom.css")
      = ⟨200, some (S "text/css"), some (S "public, max-age=86400"), some (S "cssbody"),
          [S "./static/custom.css"]⟩ :=
  ⟨static_allowlist.1 _ _ (by decide) (by decide),
   static_allowlist.2 _ _ (by decide)⟩

/-- C9 counterexample: the input `href="/w/href="/w/api.php"` contains the
root-relative resource link `href="/w/api.php"` (quote-free path), but the
leftmost `/w/` match consumes `href="/w/href="`, so the output does not
contain the claimed duplicated-quote rewrite of the `api.php` link. -/
theorem duplicated_quote_overlap_cex :
    containsSub (S "href=\"/w/href=\"/w/api.php\"") (S "href=\"/w/api.php\"") = true ∧
    containsSub
      (modifyWikipediaContent (S "href=\"/w/href=\"/w/api.php\"") (S "text/html"))
      (S "href=\"https://wikipedia.org/w/api.php\"\"") = false := by
  decide

/-- C9 amended: for a document holding a single such link, the rewritten
output does carry the duplicated closing double-quote — the replacement
keeps the matched closing quote from `link[6:]` and appends another one. -/
theorem duplicated_quote_examples :
    modifyWikipediaContent (S "href=\"/wiki/Dog\"") (S "text/html")
        = S "href=\"https://m-wikipedia.org/wiki/Dog\"\"" ∧
    modifyWikipediaContent (S "href=\"/w/api.php\"") (S "text/html")
        = S "href=\"https://wikipedia.org/w/api.php\"\"" := by
  refine ⟨by decide, by decide⟩

/-- C10: for every HTML input containing `</head>`, the output of the
rewrite engine contains the literal `<script src="/static/custom.js"></script>`
unmodified: no rewrite pass can destroy a `</head>` occurrence (each
replacement only inserts text at junctions that cannot break the tag), so
head injection always fires and inserts the block verbatim, strictly after
all rewrite passes. -/
theorem injected_script_survives (content contentType : Str)
    (hct : containsSub contentType (S "text/html") = true)
    (hhead : containsSub content headEndTag = true) :
    containsSub (modifyWikipediaContent content contentType)
      (S "<script src=\"/static/custom.js\"></script>") = true := by
  have h1 : HasSub content headEndTag := (containsSub_iff _ _).mp hhead
  have h2 : HasSub (applyAllPatterns content) headEndTag := applyAllPatterns_keeps content h1
  have h2b : containsSub (applyAllPatterns content) headEndTag = true :=
    (containsSub_iff _ _).mpr h2
  have hcf : ¬ (containsSub contentType (S "text/html") = false) := by
    rw [hct]
    decide
  simp only [modifyWikipediaContent]
  rw [if_neg hcf, if_pos h2b]
  obtain ⟨u, v, _, hr⟩ := replaceFirst_decomp (applyAllPatterns content) headEndTag
    customStyles (by decide) h2b
  rw [hr]
  apply (containsSub_iff _ _).mpr
  obtain ⟨u2, v2, hcs⟩ :=
    (containsSub_iff customStyles (S "<script src=\"/static/custom.js\"></script>")).mp
      (by decide)
  exact ⟨u ++ u2, v2 ++ v, by rw [hcs]; simp [List.append_assoc]⟩

theorem injected_script_survives_witness :
    containsSub (modifyWikipediaContent (S "<head></head>") (S "text/html"))
      (S "<script src=\"/static/custom.js\"></script>") = true :=
  injected_script_survives (S "<head></head>") (S "text/html") (by decide) (by decide)
